import Mathlib

/-!
Verification development for the repowiki-ai repository.

The repository is a browser application; its logic-bearing parts are pure,
single-pass transformations over strings and lists (URL parsing, file
selection and scoring, text chunking, symbol deduplication, per-stage
failure handling, cache reads).  This file gives a shallow embedding of
those parts: JavaScript strings are modelled as `List Char`, the GitHub and
LLM network calls are abstracted as oracle arguments, and each embedded
function mirrors the corresponding source function statement by statement.
-/

namespace RepoWiki

/-! ### JavaScript string primitives, modelled over `List Char` -/

/-- A JavaScript string, modelled as its list of characters. -/
abbrev Str := List Char

/-- Converts a Lean string literal to the `List Char` model. -/
def str (s : String) : Str := s.data

/-- Models JavaScript `s.startsWith(pre)`: the first argument read at the
front of the second. -/
def isStartOf : Str → Str → Bool
  | [], _ => true
  | _ :: _, [] => false
  | a :: as, b :: bs => a == b && isStartOf as bs

/-- Models JavaScript `s.endsWith(suf)`. -/
def isEndOf (suf s : Str) : Bool := isStartOf suf.reverse s.reverse

/-- Models JavaScript `s.includes(needle)`: `needle` occurs as a contiguous
substring of the second argument. -/
def occursIn (needle : Str) : Str → Bool
  | [] => isStartOf needle []
  | b :: bs => isStartOf needle (b :: bs) || occursIn needle bs

/-- The characters stripped by JavaScript `String.prototype.trim`
(ECMAScript WhiteSpace and LineTerminator code points). -/
def jsWhitespace : List Char :=
  [' ', '\t', '\n', '\x0b', '\x0c', '\r',
   Char.ofNat 0xa0, Char.ofNat 0x1680,
   Char.ofNat 0x2000, Char.ofNat 0x2001, Char.ofNat 0x2002, Char.ofNat 0x2003,
   Char.ofNat 0x2004, Char.ofNat 0x2005, Char.ofNat 0x2006, Char.ofNat 0x2007,
   Char.ofNat 0x2008, Char.ofNat 0x2009, Char.ofNat 0x200a,
   Char.ofNat 0x2028, Char.ofNat 0x2029,
   Char.ofNat 0x202f, Char.ofNat 0x205f, Char.ofNat 0x3000, Char.ofNat 0xfeff]

/-- Whether `trim` strips the character. -/
def isJsSpace (c : Char) : Bool := jsWhitespace.contains c

/-- Models JavaScript `s.trim()`. -/
def trimJs (s : Str) : Str :=
  (((s.dropWhile isJsSpace).reverse).dropWhile isJsSpace).reverse

/-- Models JavaScript `s.replace(needle, '')` for a plain-string pattern:
only the first occurrence of `needle` is removed. -/
def removeFirstOcc (needle : Str) : Str → Str
  | [] => []
  | c :: rest =>
    if isStartOf needle (c :: rest) then (c :: rest).drop needle.length
    else c :: removeFirstOcc needle rest

/-- Models JavaScript `s.substring(a, b)` for `a ≤ b` (the characters at
positions `a` to `b`, exclusive, clamped to the string length). -/
def substringJS (s : Str) (a b : Nat) : Str := (s.drop a).take (b - a)

/-! ### `parseGithubUrl` (githubService)

The source matches `url.trim()` against the regular expression
`/github\.com\/([^\/]+)\/([^\/]+)/` and, on a match, returns
`{ owner: match[1], name: match[2].replace('.git', ''), url: trimmed }`;
otherwise it returns `null`.  The regex engine tries each start position
from the left; at a given position the literal `github.com/` must match,
then each `[^\/]+` group greedily takes a maximal nonempty run of
non-slash characters. -/

/-- The record returned by `parseGithubUrl` (`RepoInfo` in `types.ts`;
the optional `defaultBranch` field is never set by the parser and is
omitted here). -/
structure RepoInfo where
  owner : Str
  name : Str
  url : Str
  deriving DecidableEq

/-- One attempt of the regex `github\.com\/([^\/]+)\/([^\/]+)` anchored at
the start of `s`: the literal, then a maximal nonempty slash-free owner,
a slash, and a maximal nonempty slash-free name. -/
def matchGithubAt (s : Str) : Option (Str × Str) :=
  if isStartOf (str "github.com/") s then
    let rest := s.drop (str "github.com/").length
    let owner := rest.takeWhile (fun c => c != '/')
    if owner.isEmpty then none
    else
      match rest.dropWhile (fun c => c != '/') with
      | '/' :: rest2 =>
        let name := rest2.takeWhile (fun c => c != '/')
        if name.isEmpty then none else some (owner, name)
      | _ => none
  else none

/-- The regex search: try `matchGithubAt` at every start position from the
left, returning the leftmost successful match. -/
def scanGithub : Str → Option (Str × Str)
  | [] => none
  | c :: rest =>
    match matchGithubAt (c :: rest) with
    | some r => some r
    | none => scanGithub rest

/-- Embedding of `parseGithubUrl` (githubService).  The source's
`try`/`catch` can never fire (no expression inside throws), so the model
is the plain `Option` result. -/
def parseGithubUrl (url : Str) : Option RepoInfo :=
  let trimmed := trimJs url
  match scanGithub trimmed with
  | some (o, n) => some ⟨o, removeFirstOcc (str ".git") n, trimmed⟩
  | none => none

/-- Spec-level reading of "contains a `github.com/<owner>/<name>` pattern":
somewhere in the string the literal `github.com/` is followed by a nonempty
slash-free owner segment, a slash, and at least one further non-slash
character. -/
def HasGithubRepoPattern (s : Str) : Prop :=
  ∃ pre o c rest, s = pre ++ str "github.com/" ++ o ++ '/' :: c :: rest ∧
    o ≠ [] ∧ (∀ x ∈ o, x ≠ '/') ∧ c ≠ '/'

/-! ### Data model (`types.ts`) -/

/-- The `kind` field of a symbol record
(`'function' | 'class' | 'variable' | 'interface' | 'type' | 'other'`
in `types.ts`; `class` and `variable` are Lean keywords, hence the
`Kind` suffix on every constructor). -/
inductive SymbolKind where
  | functionKind
  | classKind
  | variableKind
  | interfaceKind
  | typeKind
  | otherKind
  deriving DecidableEq

/-- The string each `kind` value denotes in the source. -/
def kindStr : SymbolKind → Str
  | .functionKind => str "function"
  | .classKind => str "class"
  | .variableKind => str "variable"
  | .interfaceKind => str "interface"
  | .typeKind => str "type"
  | .otherKind => str "other"

/-- A confidence / severity level (`'high' | 'medium' | 'low'`). -/
inductive Level where
  | high
  | medium
  | low
  deriving DecidableEq

/-- `SymbolDefinition` from `types.ts`. -/
structure SymbolDefinition where
  file : Str
  symbol : Str
  kind : SymbolKind
  signature : Str
  description : Str
  dependencies : List Str
  notes : Option Str
  confidence : Option Level
  deriving DecidableEq

/-- `FileExcerpt` from `types.ts`. -/
structure FileExcerpt where
  path : Str
  excerpt : Str
  size : Nat
  deriving DecidableEq

/-- `AnalysisResult.runtime` from `types.ts`. -/
inductive RuntimeTag where
  | node
  | python
  | go
  | other
  | unknown
  deriving DecidableEq

/-- `AnalysisResult` from `types.ts`. -/
structure AnalysisResult where
  summary : Str
  runtime : RuntimeTag
  deriving DecidableEq

/-- `ComponentInfo` from `types.ts`. -/
structure ComponentInfo where
  name : Str
  path : Str
  role : Str
  confidence : Option Level
  evidence : Option Str
  deriving DecidableEq

/-- `EntryPointInfo` from `types.ts`. -/
structure EntryPointInfo where
  path : Str
  reason : Str
  deriving DecidableEq

/-- `ArchitectureAnalysis` from `types.ts` (its `runtime` union omits
`'unknown'`, but the distinction is irrelevant to the claims; the shared
tag type is used). -/
structure ArchitectureAnalysis where
  summary : Str
  runtime : RuntimeTag
  components : List ComponentInfo
  entry_points : List EntryPointInfo
  deriving DecidableEq

/-- One entry of `SetupDetection.env` from `types.ts`. -/
structure EnvVar where
  name : Str
  hint : Str
  deriving DecidableEq

/-- `SetupDetection` from `types.ts`. -/
structure SetupDetection where
  install : List Str
  test : List Str
  env : List EnvVar
  notes : Str
  confidence : Option Level
  evidence : Option Str
  deriving DecidableEq

/-- `Pitfall` from `types.ts`. -/
structure Pitfall where
  issue : Str
  severity : Level
  remediation : Str
  deriving DecidableEq

/-! ### Symbol Aggregator (`analyzeCodeSymbols`, geminiService)

The source chunks the file content with
`for (let i = 0; i < fullContent.length; i += 2000)
   chunks.push(fullContent.substring(i, Math.min(i + 2500, fullContent.length)))`,
keeps `chunks.slice(0, 3)`, asks the model about each retained chunk
(failures and missing text yield `[]` for that chunk), flattens the
per-chunk results in order and deduplicates them by the string key
`` `${s.symbol}-${s.kind}` ``. -/

/-- The chunking loop's trace of `(i, Math.min(i + 2500, length))` window
bounds; the first argument is fuel (one unit per iteration; the loop runs
at most `len` times since `i` grows by 2000 each pass). -/
def windowsAux : Nat → Nat → Nat → List (Nat × Nat)
  | 0, _, _ => []
  | fuel + 1, len, i =>
    if i < len then (i, min (i + 2500) len) :: windowsAux fuel len (i + 2000)
    else []

/-- All window bounds the chunking loop produces for a content of length
`len`. -/
def chunkWindows (len : Nat) : List (Nat × Nat) := windowsAux len len 0

/-- The chunk list the loop builds: one `substring(i, min(i + 2500, len))`
per window. -/
def chunksOf (content : Str) : List Str :=
  (chunkWindows content.length).map (fun w => substringJS content w.1 w.2)

/-- Models `chunks.slice(0, 3)`. -/
def chunksToProcess (content : Str) : List Str := (chunksOf content).take 3

/-- The outcome of one per-chunk structured generation call: the call can
throw, return no text, return text that fails to parse, or return a parsed
symbol list. -/
inductive ChunkOutcome where
  | throwErr
  | noText
  | badJson
  | ok (syms : List SymbolDefinition)

/-- The value the per-chunk lambda produces for each outcome: a thrown
error is caught and yields `[]`, missing text returns `[]`, a parse error
is caught and yields `[]`, and parsed text yields its symbol list. -/
def chunkResult : ChunkOutcome → List SymbolDefinition
  | .ok syms => syms
  | _ => []

/-- The parsed symbol list of a successful per-chunk call, `none` for any
of the three failure modes (used to state partial-failure resilience). -/
def okResult : ChunkOutcome → Option (List SymbolDefinition)
  | .ok syms => some syms
  | _ => none

/-- The dedup key `` `${s.symbol}-${s.kind}` `` from the source. -/
def symbolKey (s : SymbolDefinition) : Str := s.symbol ++ '-' :: kindStr s.kind

/-- The dedup filter from the source: a mutable `seen` set of key strings,
keeping a record only when its key has not been seen. -/
def dedupSymbolsAux (seen : List Str) : List SymbolDefinition → List SymbolDefinition
  | [] => []
  | s :: rest =>
    if symbolKey s ∈ seen then dedupSymbolsAux seen rest
    else s :: dedupSymbolsAux (symbolKey s :: seen) rest

/-- The aggregator's final dedup pass over the flattened results. -/
def dedupSymbols (l : List SymbolDefinition) : List SymbolDefinition :=
  dedupSymbolsAux [] l

/-- Modelled from the spec's words (§4.2 step 4), for comparison with the
source's `dedupSymbols`: "for each record compute a key of
`(symbol, kind)`; keep only the first occurrence of each key". -/
def specDedupAux (seen : List (Str × SymbolKind)) :
    List SymbolDefinition → List SymbolDefinition
  | [] => []
  | s :: rest =>
    if (s.symbol, s.kind) ∈ seen then specDedupAux seen rest
    else s :: specDedupAux ((s.symbol, s.kind) :: seen) rest

/-- Spec-level dedup: first occurrence of each `(symbol, kind)` pair. -/
def specDedupPairs (l : List SymbolDefinition) : List SymbolDefinition :=
  specDedupAux [] l

/-- Embedding of `analyzeCodeSymbols` (geminiService).  The structured
generation call for window `i` is abstracted as `outcomes i`; every
failure branch of the source returns a value, so the model returns a plain
list. -/
def analyzeCodeSymbols (content : Str) (outcomes : Nat → ChunkOutcome) :
    List SymbolDefinition :=
  let results := (chunksToProcess content).enum.map (fun p => chunkResult (outcomes p.1))
  dedupSymbols results.flatten

/-! ### Repository File Selector (`fetchTopRepoFiles`, githubService) -/

/-- One entry of the recursive tree listing (`{path, type, size}`). -/
structure TreeItem where
  path : Str
  type : Str
  size : Nat
  deriving DecidableEq

/-- `interestingExtensions` from the source. -/
def interestingExtensions : List Str :=
  [str ".js", str ".jsx", str ".ts", str ".tsx", str ".py", str ".go",
   str ".rs", str ".java", str ".c", str ".cpp", str ".rb", str ".php",
   str ".json", str ".toml", str ".yaml", str ".yml", str ".md"]

/-- `excludePatterns` from the source. -/
def excludePatterns : List Str :=
  [str "node_modules", str "dist", str "build", str "coverage",
   str "package-lock.json", str "yarn.lock", str ".png", str ".jpg",
   str ".jpeg", str ".gif", str ".svg", str ".ico", str ".git/"]

/-- The conventional build-file names accepted without an extension. -/
def configFileNames : List Str := [str "Dockerfile", str "Makefile", str "Gemfile"]

/-- Models `item.path.split('/').pop()`: the last slash-separated segment
(JavaScript `split` never returns an empty array). -/
def lastSegment (path : Str) : Str := (List.splitOn '/' path).getLastD []

/-- The eligibility filter from the source: blobs only, no excluded
substring, and either an interesting extension or a conventional
build-file base name. -/
def isEligibleFile (item : TreeItem) : Bool :=
  item.type == str "blob" &&
  !(excludePatterns.any (fun p => occursIn p item.path)) &&
  (interestingExtensions.any (fun ext => isEndOf ext item.path) ||
    configFileNames.contains (lastSegment item.path))

/-- `scoreFile` from the source: additive integer importance score. -/
def scoreFile (path : Str) : Nat :=
  (if isStartOf (str "src/") path then 10 else 0) +
  (if isStartOf (str "app/") path then 10 else 0) +
  (if isStartOf (str "lib/") path then 8 else 0) +
  (if occursIn (str "main") path then 5 else 0) +
  (if occursIn (str "index") path then 5 else 0) +
  (if occursIn (str "server") path then 5 else 0) +
  (if occursIn (str "App") path then 5 else 0) +
  (if (List.splitOn '/' path).length < 3 then 2 else 0)

/-- The comparator `(a, b) => scoreFile(b.path) - scoreFile(a.path)` sorts
descending by score; `a` stays before `b` exactly when
`scoreFile b.path ≤ scoreFile a.path`. -/
def scoreGE (a b : TreeItem) : Prop := scoreFile b.path ≤ scoreFile a.path

instance : DecidableRel scoreGE := fun a b => Nat.decLe (scoreFile b.path) (scoreFile a.path)

/-- The filtered tree (`allFiles` in the source). -/
def eligibleFiles (tree : List TreeItem) : List TreeItem := tree.filter isEligibleFile

/-- `allFiles.sort((a, b) => scoreFile(b.path) - scoreFile(a.path))`.
Since ES2019 `Array.prototype.sort` is a stable sort, so for the
consistent comparator above its result is the canonical stable descending
order, modelled by insertion sort. -/
def sortedFiles (tree : List TreeItem) : List TreeItem :=
  (eligibleFiles tree).insertionSort scoreGE

/-- `sortedFiles.slice(0, 12)`. -/
def topFiles (tree : List TreeItem) : List TreeItem := (sortedFiles tree).take 12

/-- The literal excerpt stored when a per-file content fetch throws. -/
def readFailedMarker : Str := str "(Read failed)"

/-- The truncation marker appended to long broad-scan excerpts. -/
def truncMarker : Str := str "... [truncated]"

/-- The excerpt `fetchTopRepoFiles` builds from one file's decoded
content: `rawContent.length > 500 ? rawContent.substring(0, 500) +
'... [truncated]' : rawContent`. -/
def topExcerpt (rawContent : Str) : Str :=
  if rawContent.length > 500 then rawContent.take 500 ++ truncMarker
  else rawContent

/-- Embedding of `fetchTopRepoFiles` (githubService) after the tree fetch:
filter, score-sort, take 12, fetch each content (abstracted as `oracle`;
`none` models a thrown fetch/decode error), and drop the read failures. -/
def fetchTopRepoFiles (tree : List TreeItem) (oracle : Str → Option Str) :
    List FileExcerpt :=
  ((topFiles tree).map (fun file =>
      match oracle file.path with
      | some rawContent => ⟨file.path, topExcerpt rawContent, file.size⟩
      | none => ⟨file.path, readFailedMarker, file.size⟩)).filter
    (fun f => !(f.excerpt == readFailedMarker))

/-! ### `fetchDependencyFiles` (githubService) -/

/-- The probed dependency-manifest paths. -/
def dependencyTargets : List Str :=
  [str "package.json", str "package-lock.json", str "requirements.txt",
   str "pyproject.toml", str "setup.py", str "Gemfile", str "go.mod",
   str "Cargo.toml", str "Dockerfile", str "docker-compose.yml",
   str "Makefile"]

/-- Embedding of `fetchDependencyFiles` (githubService): probe each
target (`oracle` gives the decoded content; `fetchFullFileContent` returns
`""` when the file is absent or unreadable), keep nonempty contents as
`{path, excerpt: content.substring(0, 3000), size: content.length}`. -/
def fetchDependencyFiles (oracle : Str → Str) : List FileExcerpt :=
  dependencyTargets.filterMap (fun target =>
    let content := oracle target
    if content.isEmpty then none
    else some ⟨target, content.take 3000, content.length⟩)

/-! ### Per-stage failure handling (geminiService)

Each structured generation call either throws, returns no text, returns
text that fails to parse, or returns a parsed value; the pure failure
handling around the call is embedded with the call's outcome abstracted
as a `GenOutcome` argument.  A stage that propagates an exception to its
caller is modelled as `Except.error`. -/

/-- The outcome of one structured generation call. -/
inductive GenOutcome (α : Type) where
  | throwErr
  | noText
  | badJson
  | ok (val : α)

/-- Whether the outcome is one of the three failure modes. -/
def GenOutcome.isFailure : GenOutcome α → Bool
  | .ok _ => false
  | _ => true

/-- Embedding of `summarizeRepo` (geminiService): missing text throws
inside the `try`, and every caught error is rethrown as
`"Failed to analyze the repository content."`. -/
def summarizeRepo (outcome : GenOutcome AnalysisResult) : Except Str AnalysisResult :=
  match outcome with
  | .ok a => .ok a
  | _ => .error (str "Failed to analyze the repository content.")

/-- Embedding of `analyzeArchitecture` (geminiService): missing text
throws inside the `try`, and every caught error is rethrown as
`"Failed to analyze architecture."`. -/
def analyzeArchitecture (outcome : GenOutcome ArchitectureAnalysis) :
    Except Str ArchitectureAnalysis :=
  match outcome with
  | .ok a => .ok a
  | _ => .error (str "Failed to analyze architecture.")

/-- Embedding of `detectSetup` (geminiService): an empty dependency list
short-circuits to a default; missing text returns the
`'Failed to parse setup.'` default; a thrown call or parse error is caught
and returns the `'Error during detection.'` default.  No path throws. -/
def detectSetup (dependencyFiles : List FileExcerpt)
    (outcome : GenOutcome SetupDetection) : Except Str SetupDetection :=
  if dependencyFiles.length = 0 then
    .ok ⟨[], [], [], str "No dependency files found.", none, none⟩
  else
    match outcome with
    | .ok s => .ok s
    | .noText => .ok ⟨[], [], [], str "Failed to parse setup.", none, none⟩
    | .throwErr => .ok ⟨[], [], [], str "Error during detection.", none, none⟩
    | .badJson => .ok ⟨[], [], [], str "Error during detection.", none, none⟩

/-- Embedding of `analyzePitfalls` (geminiService): missing text returns
`[]`; a thrown call or parse error is caught and returns `[]`.  No path
throws. -/
def analyzePitfalls (_files : List FileExcerpt)
    (outcome : GenOutcome (List Pitfall)) : Except Str (List Pitfall) :=
  match outcome with
  | .ok l => .ok l
  | .noText => .ok []
  | .throwErr => .ok []
  | .badJson => .ok []

/-! ### Cached report handling (`App.tsx`)

`localStorage.getItem('repoWikiCache')` is the single persistent slot.
The mount effect (App.tsx lines 92-106) parses it, removes it when
corrupt, and compares `Date.now() - parsed.timestamp` against `3600000` —
but the restore inside the fresh branch is commented out, so neither
branch changes the visible state.  `handleAnalyze` (lines 146-171) reads
the slot again and restores it whenever the stored `repoInfo` owner and
name match the requested repository, without consulting `timestamp`. -/

/-- The fields of the stored report that the cache logic consults, plus
its write timestamp (milliseconds). -/
structure CachedReport where
  timestamp : Nat
  owner : Str
  name : Str
  deriving DecidableEq

/-- The persistent slot as the mount effect sees it: absent, present but
unparsable, or a parsed report. -/
inductive StoredSlot where
  | empty
  | corrupt
  | saved (entry : CachedReport)
  deriving DecidableEq

/-- Embedding of the mount effect (App.tsx lines 92-106): returns the slot
after the effect and the report loaded into the visible state, if any.  A
corrupt slot is removed; for a parsed slot the freshness test
`Date.now() - parsed.timestamp < 3600000` is evaluated but both branches
leave the visible state untouched (the restore is commented out in the
source). -/
def mountCacheEffect (slot : StoredSlot) (now : Nat) :
    StoredSlot × Option CachedReport :=
  match slot with
  | .empty => (.empty, none)
  | .corrupt => (.empty, none)
  | .saved entry =>
    if now - entry.timestamp < 3600000 then (.saved entry, none)
    else (.saved entry, none)

/-- What `handleAnalyze` does after URL validation: restore the stored
report into the visible state, or run a fresh analysis pipeline. -/
inductive AnalyzeDecision where
  | restoreFromCache (entry : CachedReport)
  | freshRun
  deriving DecidableEq

/-- Embedding of the cache read in `handleAnalyze` (App.tsx lines
146-171): with a parsed slot present and `skipCache` unset, the report is
restored exactly when its stored owner and name equal the requested
repository's; `timestamp` is not consulted. -/
def handleAnalyzeCacheStep (skipCache : Bool) (saved : Option CachedReport)
    (target : RepoInfo) : AnalyzeDecision :=
  match saved with
  | some entry =>
    if !skipCache && (entry.name == target.name && entry.owner == target.owner) then
      .restoreFromCache entry
    else .freshRun
  | none => .freshRun

/-! ## Theorems -/

/-! ### String helper lemmas -/

theorem isStartOf_iff : ∀ (p s : Str), isStartOf p s = true ↔ ∃ t, s = p ++ t
  | [], s => by simp [isStartOf]
  | _ :: _, [] => by simp [isStartOf]
  | a :: as, b :: bs => by
    simp only [isStartOf, Bool.and_eq_true, beq_iff_eq, isStartOf_iff as bs,
      List.cons_append, List.cons.injEq]
    constructor
    · rintro ⟨rfl, t, rfl⟩; exact ⟨t, rfl, rfl⟩
    · rintro ⟨t, rfl, rfl⟩; exact ⟨rfl, t, rfl⟩

theorem occursIn_iff : ∀ (n s : Str), occursIn n s = true ↔ ∃ u v, s = u ++ n ++ v
  | n, [] => by
    constructor
    · intro h
      rcases (isStartOf_iff n []).1 h with ⟨t, ht⟩
      rcases List.append_eq_nil.1 ht.symm with ⟨rfl, rfl⟩
      exact ⟨[], [], rfl⟩
    · rintro ⟨u, v, huv⟩
      rcases List.append_eq_nil.1 huv.symm with ⟨h1, rfl⟩
      rcases List.append_eq_nil.1 h1 with ⟨rfl, rfl⟩
      exact (isStartOf_iff [] []).2 ⟨[], rfl⟩
  | n, b :: bs => by
    simp only [occursIn, Bool.or_eq_true, isStartOf_iff, occursIn_iff n bs]
    constructor
    · rintro (⟨t, ht⟩ | ⟨u, v, huv⟩)
      · exact ⟨[], t, by simpa using ht⟩
      · exact ⟨b :: u, v, by simp [huv]⟩
    · rintro ⟨u, v, huv⟩
      match u, huv with
      | [], huv => exact Or.inl ⟨v, by simpa using huv⟩
      | c :: u, huv =>
        rw [List.cons_append, List.cons_append] at huv
        injection huv with _ h2
        exact Or.inr ⟨u, v, h2⟩

theorem takeWhile_all_append {p : Char → Bool} :
    ∀ (o t : Str), (∀ x ∈ o, p x = true) → (∀ c ∈ t.head?, p c = false) →
      (o ++ t).takeWhile p = o ∧ (o ++ t).dropWhile p = t
  | [], t, _, ht => by
    cases t with
    | nil => simp
    | cons c cs =>
      have hc : p c = false := ht c rfl
      simp [List.takeWhile_cons, List.dropWhile_cons, hc]
  | x :: o, t, ho, ht => by
    have hx : p x = true := ho x (by simp)
    have ih := takeWhile_all_append o t (fun y hy => ho y (by simp [hy])) ht
    simp [List.takeWhile_cons, List.dropWhile_cons, hx, ih.1, ih.2]

theorem head_dropWhile_false {p : Char → Bool} :
    ∀ (l : Str) (c : Char), c ∈ (l.dropWhile p).head? → p c = false
  | [], c => by simp
  | x :: l, c => by
    by_cases hx : p x = true
    · simpa [List.dropWhile_cons, hx] using head_dropWhile_false (p := p) l c
    · simp only [Bool.not_eq_true] at hx
      simp [List.dropWhile_cons, hx]
      rintro rfl
      exact hx

theorem mem_takeWhile_true {p : Char → Bool} (l : Str) (x : Char)
    (h : x ∈ l.takeWhile p) : p x = true :=
  List.mem_takeWhile_imp h

/-! ### Chunk-window characterization (Symbol Aggregator) -/

theorem windowsAux_eq : ∀ (fuel len i : Nat), len - i ≤ 2000 * fuel →
    windowsAux fuel len i = (List.range ((len - i + 1999) / 2000)).map
      (fun j => (i + 2000 * j, min (i + 2000 * j + 2500) len))
  | 0, len, i, h => by
    have hle : len ≤ i := by omega
    have : (len - i + 1999) / 2000 = 0 := by omega
    simp [windowsAux, this]
  | fuel + 1, len, i, h => by
    by_cases hi : i < len
    · have hcount : (len - i + 1999) / 2000 = (len - (i + 2000) + 1999) / 2000 + 1 := by
        omega
      have ih := windowsAux_eq fuel len (i + 2000) (by omega)
      rw [windowsAux, if_pos hi, ih, hcount, List.range_succ_eq_map]
      simp only [List.map_cons, List.map_map]
      refine congrArg₂ _ (by simp) ?_
      refine List.map_congr_left fun j _ => ?_
      simp only [Function.comp_apply, Prod.mk.injEq]
      have h1 : i + 2000 + 2000 * j = i + 2000 * (j + 1) := by omega
      have h2 : i + 2000 + 2000 * j + 2500 = i + 2000 * (j + 1) + 2500 := by omega
      exact ⟨by omega, by rw [← h2]⟩
    · have : (len - i + 1999) / 2000 = 0 := by omega
      rw [windowsAux, if_neg hi, this]
      simp

theorem chunkWindows_eq (len : Nat) :
    chunkWindows len = (List.range ((len + 1999) / 2000)).map
      (fun j => (2000 * j, min (2000 * j + 2500) len)) := by
  have h := windowsAux_eq len len 0 (by omega)
  simpa [chunkWindows] using h

/-- C3: the Symbol Aggregator partitions the input into windows whose
start offsets advance by stride 2000 with end offset `min (i + 2500) len`
until the text is exhausted, each retained chunk is the substring over its
window, at most the first 3 windows are processed, and a 6000-character
content yields exactly the windows `[0:2500)`, `[2000:4500)`,
`[4000:6000)`. -/
theorem aggregator_window_shape :
    (∀ len, chunkWindows len = (List.range ((len + 1999) / 2000)).map
        (fun j => (2000 * j, min (2000 * j + 2500) len))) ∧
    (∀ content, chunksToProcess content =
        ((chunkWindows content.length).take 3).map
          (fun w => substringJS content w.1 w.2)) ∧
    (∀ content, (chunksToProcess content).length ≤ 3) ∧
    chunkWindows 6000 = [(0, 2500), (2000, 4500), (4000, 6000)] := by
  refine ⟨chunkWindows_eq, fun content => ?_, fun content => ?_, by decide⟩
  · rw [chunksToProcess, chunksOf, List.map_take]
  · exact List.length_take_le 3 _

/-! ### Symbol dedup key injectivity -/

theorem kindStr_no_dash (k : SymbolKind) : '-' ∉ kindStr k := by
  cases k <;> decide

theorem kindStr_inj {k₁ k₂ : SymbolKind} (h : kindStr k₁ = kindStr k₂) : k₁ = k₂ := by
  cases k₁ <;> cases k₂ <;> first | rfl | (exfalso; exact absurd h (by decide))

theorem append_dash_inj : ∀ (a b t₁ t₂ : Str), '-' ∉ t₁ → '-' ∉ t₂ →
    a ++ '-' :: t₁ = b ++ '-' :: t₂ → a = b ∧ t₁ = t₂
  | [], [], t₁, t₂, _, _, h => by
    injection h with _ h2
    exact ⟨rfl, h2⟩
  | [], x :: b, t₁, t₂, h₁, _, h => by
    rw [List.nil_append, List.cons_append] at h
    injection h with _ h2
    exact absurd (h2 ▸ (List.mem_append.2 (Or.inr (List.mem_cons_self _ _)))) h₁
  | y :: a, [], t₁, t₂, _, h₂, h => by
    rw [List.nil_append, List.cons_append] at h
    injection h with _ h2
    exact absurd (h2 ▸ (List.mem_append.2 (Or.inr (List.mem_cons_self _ _)))) h₂
  | y :: a, x :: b, t₁, t₂, h₁, h₂, h => by
    rw [List.cons_append, List.cons_append] at h
    injection h with hhead htail
    rcases append_dash_inj a b t₁ t₂ h₁ h₂ htail with ⟨ha, ht⟩
    exact ⟨by rw [hhead, ha], ht⟩

theorem symbolKey_inj {s t : SymbolDefinition} (h : symbolKey s = symbolKey t) :
    s.symbol = t.symbol ∧ s.kind = t.kind := by
  rcases append_dash_inj _ _ _ _ (kindStr_no_dash s.kind) (kindStr_no_dash t.kind) h with
    ⟨h1, h2⟩
  exact ⟨h1, kindStr_inj h2⟩

theorem symbolKey_eq_iff {s t : SymbolDefinition} :
    symbolKey s = symbolKey t ↔ s.symbol = t.symbol ∧ s.kind = t.kind := by
  constructor
  · exact symbolKey_inj
  · rintro ⟨h1, h2⟩
    simp [symbolKey, h1, h2]

theorem dedupSymbolsAux_eq_specDedupAux :
    ∀ (l : List SymbolDefinition) (seenK : List Str)
      (seenP : List (Str × SymbolKind)),
      (∀ s : SymbolDefinition, symbolKey s ∈ seenK ↔ (s.symbol, s.kind) ∈ seenP) →
      dedupSymbolsAux seenK l = specDedupAux seenP l
  | [], _, _, _ => rfl
  | s :: rest, seenK, seenP, hinv => by
    by_cases hs : symbolKey s ∈ seenK
    · rw [dedupSymbolsAux, if_pos hs, specDedupAux, if_pos ((hinv s).1 hs)]
      exact dedupSymbolsAux_eq_specDedupAux rest seenK seenP hinv
    · rw [dedupSymbolsAux, if_neg hs, specDedupAux,
        if_neg (fun hp => hs ((hinv s).2 hp))]
      refine congrArg _ (dedupSymbolsAux_eq_specDedupAux rest _ _ fun t => ?_)
      simp only [List.mem_cons]
      constructor
      · rintro (hk | hk)
        · rcases symbolKey_inj hk with ⟨h1, h2⟩
          exact Or.inl (by rw [h1, h2])
        · exact Or.inr ((hinv t).1 hk)
      · rintro (hp | hp)
        · exact Or.inl (symbolKey_eq_iff.2 ⟨congrArg Prod.fst hp, congrArg Prod.snd hp⟩)
        · exact Or.inr ((hinv t).2 hp)

theorem mem_dedupSymbolsAux_not_seen :
    ∀ (l : List SymbolDefinition) (seen : List Str) (x : SymbolDefinition),
      x ∈ dedupSymbolsAux seen l → symbolKey x ∉ seen
  | [], _, x, hx => by simp [dedupSymbolsAux] at hx
  | s :: rest, seen, x, hx => by
    by_cases hs : symbolKey s ∈ seen
    · rw [dedupSymbolsAux, if_pos hs] at hx
      exact mem_dedupSymbolsAux_not_seen rest seen x hx
    · rw [dedupSymbolsAux, if_neg hs] at hx
      rcases List.mem_cons.1 hx with rfl | hx
      · exact hs
      · have := mem_dedupSymbolsAux_not_seen rest _ x hx
        exact fun hmem => this (List.mem_cons_of_mem _ hmem)

theorem dedupSymbolsAux_pairwise :
    ∀ (l : List SymbolDefinition) (seen : List Str),
      (dedupSymbolsAux seen l).Pairwise (fun a b => symbolKey a ≠ symbolKey b)
  | [], _ => List.Pairwise.nil
  | s :: rest, seen => by
    by_cases hs : symbolKey s ∈ seen
    · rw [dedupSymbolsAux, if_pos hs]
      exact dedupSymbolsAux_pairwise rest seen
    · rw [dedupSymbolsAux, if_neg hs]
      refine List.Pairwise.cons (fun y hy => ?_) (dedupSymbolsAux_pairwise rest _)
      have := mem_dedupSymbolsAux_not_seen rest _ y hy
      exact fun hkey => this (hkey ▸ List.mem_cons_self _ _)

/-- C2: the aggregator's dedup pass coincides with first-occurrence
deduplication on `(symbol, kind)` pairs, and any two records in
`analyzeCodeSymbols` output have distinct `(symbol, kind)` pairs.  The
source's string key `` `${symbol}-${kind}` `` is injective on pairs
because every `kind` string is dash-free. -/
theorem aggregator_dedup_first_occurrence :
    (∀ l, dedupSymbols l = specDedupPairs l) ∧
    (∀ content outcomes, analyzeCodeSymbols content outcomes =
        specDedupPairs ((chunksToProcess content).enum.map
          (fun p => chunkResult (outcomes p.1))).flatten) ∧
    (∀ content outcomes, (analyzeCodeSymbols content outcomes).Pairwise
        (fun a b => (a.symbol, a.kind) ≠ (b.symbol, b.kind))) := by
  have hdedup : ∀ l, dedupSymbols l = specDedupPairs l :=
    fun l => dedupSymbolsAux_eq_specDedupAux l [] [] (by simp)
  refine ⟨hdedup, fun content outcomes => hdedup _, fun content outcomes => ?_⟩
  refine (dedupSymbolsAux_pairwise _ []).imp ?_
  intro a b hab hpair
  exact hab (symbolKey_eq_iff.2 ⟨congrArg Prod.fst hpair, congrArg Prod.snd hpair⟩)

/-! ### Partial-failure resilience (Symbol Aggregator) -/

theorem chunkResult_eq_getD (o : ChunkOutcome) :
    chunkResult o = (okResult o).getD [] := by
  cases o <;> rfl

theorem flatten_chunkResults_eq_flatten_ok (outcomes : Nat → ChunkOutcome) :
    ∀ (l : List (Nat × Str)),
      (l.map (fun p => chunkResult (outcomes p.1))).flatten =
      (l.filterMap (fun p => okResult (outcomes p.1))).flatten
  | [] => rfl
  | p :: rest => by
    have ih := flatten_chunkResults_eq_flatten_ok outcomes rest
    simp only [chunkResult_eq_getD] at ih
    simp only [List.map_cons, List.filterMap_cons, List.flatten_cons,
      chunkResult_eq_getD]
    cases ho : okResult (outcomes p.1) with
    | none => simpa using ih
    | some syms => simpa using ih

/-- C4: the aggregator is total (its embedding returns a plain list; every
failure branch of the source yields a value), a failed window contributes
nothing — the result is the deduplicated union of the successful windows'
parsed results — and when every window fails, or the content is empty, the
result is the empty list. -/
theorem aggregator_partial_failure :
    (∀ content outcomes, analyzeCodeSymbols content outcomes =
        dedupSymbols ((chunksToProcess content).enum.filterMap
          (fun p => okResult (outcomes p.1))).flatten) ∧
    (∀ content outcomes, (∀ i syms, outcomes i ≠ .ok syms) →
        analyzeCodeSymbols content outcomes = []) ∧
    (∀ outcomes, analyzeCodeSymbols [] outcomes = []) := by
  refine ⟨fun content outcomes => ?_, fun content outcomes hfail => ?_, fun outcomes => rfl⟩
  · simp only [analyzeCodeSymbols]
    rw [flatten_chunkResults_eq_flatten_ok]
  · simp only [analyzeCodeSymbols]
    have hres : ∀ (l : List (Nat × Str)),
        (l.map (fun p => chunkResult (outcomes p.1))).flatten = [] := by
      intro l
      induction l with
      | nil => rfl
      | cons p rest ih =>
        have hc : chunkResult (outcomes p.1) = [] := by
          rw [chunkResult_eq_getD]
          cases ho : outcomes p.1 with
          | ok syms => exact absurd ho (hfail p.1 syms)
          | throwErr => rfl
          | noText => rfl
          | badJson => rfl
        simp [hc, ih]
    rw [hres]
    rfl

/-- Witness for `aggregator_partial_failure`: with every window's call
throwing, a concrete four-character content aggregates to the empty
list. -/
theorem aggregator_partial_failure_witness :
    (∀ i syms, (fun _ : Nat => ChunkOutcome.throwErr) i ≠ ChunkOutcome.ok syms) ∧
    analyzeCodeSymbols (str "abcd") (fun _ => ChunkOutcome.throwErr) = [] := by
  have hfail : ∀ i syms, (fun _ : Nat => ChunkOutcome.throwErr) i ≠ ChunkOutcome.ok syms :=
    fun _ _ h => ChunkOutcome.noConfusion h
  exact ⟨hfail, aggregator_partial_failure.2.1 (str "abcd") (fun _ => .throwErr) hfail⟩

/-! ### File Selector ordering (stable descending sort) -/

instance : IsTotal TreeItem scoreGE :=
  ⟨fun a b => Nat.le_total (scoreFile b.path) (scoreFile a.path)⟩

instance : IsTrans TreeItem scoreGE :=
  ⟨fun _ _ _ hab hbc => Nat.le_trans hbc hab⟩

theorem filter_score_orderedInsert (v : Nat) (a : TreeItem) (l : List TreeItem) :
    (List.orderedInsert scoreGE a l).filter (fun x => scoreFile x.path == v) =
      if scoreFile a.path == v then
        a :: l.filter (fun x => scoreFile x.path == v)
      else l.filter (fun x => scoreFile x.path == v) := by
  rw [List.orderedInsert_eq_take_drop, List.filter_append]
  have htake : (l.takeWhile fun b => decide ¬ scoreGE a b).filter
      (fun x => scoreFile x.path == v) =
      if scoreFile a.path == v then [] else
        (l.takeWhile fun b => decide ¬ scoreGE a b).filter
          (fun x => scoreFile x.path == v) := by
    by_cases hv : scoreFile a.path = v
    · rw [if_pos (by simp [hv])]
      rw [List.filter_eq_nil_iff]
      intro b hb
      have hgt := List.mem_takeWhile_imp hb
      simp only [decide_eq_true_eq, scoreGE, not_le] at hgt
      simp only [beq_iff_eq]
      omega
    · rw [if_neg (by simpa using hv)]
  by_cases hv : scoreFile a.path = v
  · rw [if_pos (by simp [hv])] at htake ⊢
    rw [htake, List.nil_append, List.filter_cons_of_pos (by simp [hv])]
    refine congrArg _ ?_
    conv_rhs => rw [← List.takeWhile_append_dropWhile
      (p := fun b => decide ¬ scoreGE a b) (l := l)]
    rw [List.filter_append, htake, List.nil_append]
  · rw [if_neg (by simpa using hv)] at htake ⊢
    rw [List.filter_cons_of_neg (by simpa using hv)]
    conv_rhs => rw [← List.takeWhile_append_dropWhile
      (p := fun b => decide ¬ scoreGE a b) (l := l)]
    rw [List.filter_append]

theorem filter_score_insertionSort (v : Nat) (l : List TreeItem) :
    (l.insertionSort scoreGE).filter (fun x => scoreFile x.path == v) =
      l.filter (fun x => scoreFile x.path == v) := by
  induction l with
  | nil => rfl
  | cons a l ih =>
    rw [List.insertionSort, filter_score_orderedInsert]
    by_cases hv : scoreFile a.path = v
    · rw [if_pos (by simp [hv]), ih, List.filter_cons_of_pos (by simp [hv])]
    · rw [if_neg (by simpa using hv), ih, List.filter_cons_of_neg (by simpa using hv)]

/-- C5: the File Selector's eligible candidates are sorted descending by
`scoreFile` with ties kept in original tree order (for every score value,
the records with that score appear in the same order as in the filtered
tree), the sorted list is a permutation of the eligible list, and the
selector's head output is its 12-element truncation.  Determinism is
inherent: the embedding is a function of the input tree. -/
theorem fileSelector_stable_order :
    (∀ tree, topFiles tree = (sortedFiles tree).take 12) ∧
    (∀ tree, List.Perm (sortedFiles tree) (eligibleFiles tree)) ∧
    (∀ tree, (sortedFiles tree).Sorted scoreGE) ∧
    (∀ tree v, (sortedFiles tree).filter (fun x => scoreFile x.path == v) =
        (eligibleFiles tree).filter (fun x => scoreFile x.path == v)) :=
  ⟨fun _ => rfl,
   fun tree => List.perm_insertionSort scoreGE (eligibleFiles tree),
   fun tree => List.sorted_insertionSort scoreGE (eligibleFiles tree),
   fun tree v => filter_score_insertionSort v (eligibleFiles tree)⟩

/-- C6: the selector's output never exceeds 12 files, whatever the input
tree and content oracle. -/
theorem fileSelector_bounded (tree : List TreeItem) (oracle : Str → Option Str) :
    (fetchTopRepoFiles tree oracle).length ≤ 12 := by
  simp only [fetchTopRepoFiles]
  refine Nat.le_trans (List.length_filter_le _ _) ?_
  rw [List.length_map]
  exact List.length_take_le 12 _

theorem mem_fetchTopRepoFiles_path {tree : List TreeItem} {oracle : Str → Option Str}
    {f : FileExcerpt} (hf : f ∈ fetchTopRepoFiles tree oracle) :
    ∃ t ∈ eligibleFiles tree, f.path = t.path := by
  have hf' := List.mem_of_mem_filter hf
  rcases List.mem_map.1 hf' with ⟨t, ht, hft⟩
  refine ⟨t, ?_, ?_⟩
  · exact (List.mem_insertionSort scoreGE).1 (List.mem_of_mem_take ht)
  · cases ho : oracle t.path <;> rw [ho] at hft <;> exact hft ▸ rfl

/-- C7: a tree entry whose path contains any excluded substring never
reaches the selector's output. -/
theorem fileSelector_exclusion (tree : List TreeItem) (oracle : Str → Option Str)
    (f : FileExcerpt) (hf : f ∈ fetchTopRepoFiles tree oracle)
    (p : Str) (hp : p ∈ excludePatterns) : occursIn p f.path = false := by
  rcases mem_fetchTopRepoFiles_path hf with ⟨t, ht, hpath⟩
  have helig : isEligibleFile t = true := List.of_mem_filter ht
  simp only [isEligibleFile, Bool.and_eq_true, Bool.not_eq_true'] at helig
  have hany : excludePatterns.any (fun q => occursIn q t.path) = false := helig.1.2
  rw [hpath]
  have h := List.any_eq_false.1 (by simpa using hany) p hp
  simpa using h

/-- Witness for `fileSelector_exclusion`: a concrete one-file tree whose
single excerpt's path contains no excluded substring. -/
theorem fileSelector_exclusion_witness :
    (⟨str "src/index.ts", str "hello", 7⟩ : FileExcerpt) ∈
      fetchTopRepoFiles [⟨str "src/index.ts", str "blob", 7⟩]
        (fun _ => some (str "hello")) ∧
    str "node_modules" ∈ excludePatterns ∧
    occursIn (str "node_modules") (str "src/index.ts") = false := by
  refine ⟨by decide, by decide, ?_⟩
  exact fileSelector_exclusion [⟨str "src/index.ts", str "blob", 7⟩]
    (fun _ => some (str "hello")) ⟨str "src/index.ts", str "hello", 7⟩
    (by decide) (str "node_modules") (by decide)

/-! ### Per-stage failure policy -/

/-- C8: on any structured-response failure (thrown call, missing text, or
unparsable text), `detectSetup` and `analyzePitfalls` return a safe
default (`.ok` with empty lists and a nonempty note, resp. the empty
pitfall list), while `summarizeRepo` and `analyzeArchitecture` surface an
error. -/
theorem stage_failure_policy (oS : GenOutcome AnalysisResult)
    (oA : GenOutcome ArchitectureAnalysis) (oD : GenOutcome SetupDetection)
    (oP : GenOutcome (List Pitfall)) (deps files : List FileExcerpt)
    (hS : oS.isFailure = true) (hA : oA.isFailure = true)
    (hD : oD.isFailure = true) (hP : oP.isFailure = true) :
    summarizeRepo oS = .error (str "Failed to analyze the repository content.") ∧
    analyzeArchitecture oA = .error (str "Failed to analyze architecture.") ∧
    (∃ note, note ≠ [] ∧
      detectSetup deps oD = .ok ⟨[], [], [], note, none, none⟩) ∧
    analyzePitfalls files oP = .ok [] := by
  refine ⟨?_, ?_, ?_, ?_⟩
  · cases oS with
    | ok a => exact absurd hS (by simp [GenOutcome.isFailure])
    | throwErr => rfl
    | noText => rfl
    | badJson => rfl
  · cases oA with
    | ok a => exact absurd hA (by simp [GenOutcome.isFailure])
    | throwErr => rfl
    | noText => rfl
    | badJson => rfl
  · by_cases hdeps : deps.length = 0
    · exact ⟨str "No dependency files found.", by decide,
        by simp only [detectSetup]; rw [if_pos hdeps]⟩
    · cases oD with
      | ok a => exact absurd hD (by simp [GenOutcome.isFailure])
      | throwErr => exact ⟨str "Error during detection.", by decide,
          by simp only [detectSetup]; rw [if_neg hdeps]⟩
      | noText => exact ⟨str "Failed to parse setup.", by decide,
          by simp only [detectSetup]; rw [if_neg hdeps]⟩
      | badJson => exact ⟨str "Error during detection.", by decide,
          by simp only [detectSetup]; rw [if_neg hdeps]⟩
  · cases oP with
    | ok a => exact absurd hP (by simp [GenOutcome.isFailure])
    | throwErr => rfl
    | noText => rfl
    | badJson => rfl

/-- Witness for `stage_failure_policy`: every call throwing, with empty
dependency and context file lists. -/
theorem stage_failure_policy_witness :
    (GenOutcome.throwErr : GenOutcome AnalysisResult).isFailure = true ∧
    (GenOutcome.throwErr : GenOutcome ArchitectureAnalysis).isFailure = true ∧
    (GenOutcome.throwErr : GenOutcome SetupDetection).isFailure = true ∧
    (GenOutcome.throwErr : GenOutcome (List Pitfall)).isFailure = true ∧
    (summarizeRepo .throwErr = .error (str "Failed to analyze the repository content.") ∧
     analyzeArchitecture .throwErr = .error (str "Failed to analyze architecture.") ∧
     (∃ note, note ≠ [] ∧
       detectSetup [] .throwErr = .ok ⟨[], [], [], note, none, none⟩) ∧
     analyzePitfalls [] .throwErr = .ok []) :=
  ⟨rfl, rfl, rfl, rfl,
   stage_failure_policy .throwErr .throwErr .throwErr .throwErr [] [] rfl rfl rfl rfl⟩

/-! ### Excerpt truncation bounds -/

theorem mem_fetchDependencyFiles {oracle : Str → Str} {f : FileExcerpt}
    (hf : f ∈ fetchDependencyFiles oracle) :
    f.excerpt = (oracle f.path).take 3000 ∧ f.size = (oracle f.path).length := by
  rcases List.mem_filterMap.1 hf with ⟨target, _, htarget⟩
  by_cases hc : (oracle target).isEmpty
  · rw [if_pos hc] at htarget
    exact absurd htarget (by simp)
  · rw [if_neg hc] at htarget
    injection htarget with htarget
    subst htarget
    exact ⟨rfl, rfl⟩

/-- C9: broad-scan excerpts carry at most 500 characters of file content
(either the whole content when it fits, or its 500-character head plus the
fixed truncation marker), and dependency-manifest excerpts are the
3000-character head of the content, hence of length at most 3000. -/
theorem excerpt_truncation :
    (∀ rawContent : Str, rawContent.length ≤ 500 → topExcerpt rawContent = rawContent) ∧
    (∀ rawContent : Str, 500 < rawContent.length →
        topExcerpt rawContent = rawContent.take 500 ++ truncMarker ∧
        (rawContent.take 500).length = 500) ∧
    (∀ tree oracle f, f ∈ fetchTopRepoFiles tree oracle →
        ∃ rawContent, oracle f.path = some rawContent ∧
          f.excerpt = topExcerpt rawContent) ∧
    (∀ (oracle : Str → Str) f, f ∈ fetchDependencyFiles oracle →
        f.excerpt = (oracle f.path).take 3000 ∧ f.excerpt.length ≤ 3000) := by
  refine ⟨fun raw hraw => ?_, fun raw hraw => ?_, ?_, ?_⟩
  · rw [topExcerpt, if_neg (by omega)]
  · exact ⟨by rw [topExcerpt, if_pos (by omega)], by rw [List.length_take]; omega⟩
  · intro tree oracle f hf
    have hf' := List.mem_of_mem_filter hf
    have hmarker := List.of_mem_filter hf
    rcases List.mem_map.1 hf' with ⟨t, _, hft⟩
    cases ho : oracle t.path with
    | some raw =>
      rw [ho] at hft
      refine ⟨raw, ?_, ?_⟩
      · rw [← hft]; exact ho
      · rw [← hft]
    | none =>
      rw [ho] at hft
      rw [← hft] at hmarker
      exact absurd hmarker (by simp)
  · intro oracle f hf
    have h := mem_fetchDependencyFiles hf
    exact ⟨h.1, by rw [h.1, List.length_take]; omega⟩

/-- Witness for `excerpt_truncation`: a short content is kept verbatim, a
501-character content is cut to its 500-character head plus the marker,
and concrete selector / dependency outputs satisfy the membership
hypotheses. -/
theorem excerpt_truncation_witness :
    ((str "hi").length ≤ 500 ∧ topExcerpt (str "hi") = str "hi") ∧
    (500 < (List.replicate 501 'a').length ∧
      topExcerpt (List.replicate 501 'a') =
        (List.replicate 501 'a').take 500 ++ truncMarker ∧
      ((List.replicate 501 'a').take 500).length = 500) ∧
    ((⟨str "src/index.ts", str "hello", 7⟩ : FileExcerpt) ∈
        fetchTopRepoFiles [⟨str "src/index.ts", str "blob", 7⟩]
          (fun _ => some (str "hello")) ∧
      (∃ rawContent, (fun _ : Str => some (str "hello")) (str "src/index.ts") =
          some rawContent ∧
        str "hello" = topExcerpt rawContent)) ∧
    ((⟨str "package.json", str "x", 1⟩ : FileExcerpt) ∈
        fetchDependencyFiles (fun t => if t = str "package.json" then str "x" else []) ∧
      (str "x" = ((fun t => if t = str "package.json" then str "x" else [])
          (str "package.json")).take 3000 ∧
        (str "x").length ≤ 3000)) := by
  refine ⟨⟨by decide, excerpt_truncation.1 (str "hi") (by decide)⟩,
    ⟨by rw [List.length_replicate]; omega,
      excerpt_truncation.2.1 (List.replicate 501 'a') (by rw [List.length_replicate]; omega)⟩,
    ⟨by decide, ?_⟩, ⟨by decide, ?_⟩⟩
  · exact excerpt_truncation.2.2.1 [⟨str "src/index.ts", str "blob", 7⟩]
      (fun _ => some (str "hello")) ⟨str "src/index.ts", str "hello", 7⟩ (by decide)
  · exact excerpt_truncation.2.2.2
      (fun t => if t = str "package.json" then str "x" else [])
      ⟨str "package.json", str "x", 1⟩ (by decide)

/-! ### `parseGithubUrl` characterization -/

theorem matchGithubAt_some {s o n : Str} (h : matchGithubAt s = some (o, n)) :
    ∃ tail, s = str "github.com/" ++ o ++ '/' :: n ++ tail ∧
      o ≠ [] ∧ n ≠ [] ∧ (∀ x ∈ o, x ≠ '/') ∧ (∀ x ∈ n, x ≠ '/') ∧
      (∀ c ∈ tail.head?, c = '/') := by
  rw [matchGithubAt] at h
  split at h
  case isFalse => exact absurd h (by simp)
  case isTrue hst =>
    rcases (isStartOf_iff _ _).1 hst with ⟨rest, rfl⟩
    simp only [List.drop_left] at h
    split at h
    case isTrue => exact absurd h (by simp)
    case isFalse hne =>
      have howner : rest.takeWhile (fun c => c != '/') ≠ [] := by
        intro hnil
        rw [List.isEmpty_iff] at hne
        exact hne hnil
      split at h
      case h_2 => exact absurd h (by simp)
      case h_1 rest2 hdrop =>
        split at h
        case isTrue => exact absurd h (by simp)
        case isFalse hne2 =>
          injection h with h
          injection h with ho hn
          subst ho
          subst hn
          have hname : rest2.takeWhile (fun c => c != '/') ≠ [] := by
            intro hnil
            rw [List.isEmpty_iff] at hne2
            exact hne2 hnil
          refine ⟨rest2.dropWhile (fun c => c != '/'), ?_, howner, hname, ?_, ?_, ?_⟩
          · have e1 : rest = rest.takeWhile (fun c => c != '/') ++ ('/' :: rest2) := by
              rw [← hdrop, List.takeWhile_append_dropWhile]
            have e2 : rest2 = rest2.takeWhile (fun c => c != '/') ++
                rest2.dropWhile (fun c => c != '/') :=
              (List.takeWhile_append_dropWhile _ _).symm
            conv_lhs => rw [e1]
            conv_lhs => rw [e2]
            simp [List.append_assoc]
          · intro x hx
            have := List.mem_takeWhile_imp hx
            exact bne_iff_ne.1 this
          · intro x hx
            have := List.mem_takeWhile_imp hx
            exact bne_iff_ne.1 this
          · intro c hc
            have := head_dropWhile_false rest2 c hc
            simpa using this

theorem matchGithubAt_isSome_of {o : Str} (c : Char) (rest : Str) (ho : o ≠ [])
    (hos : ∀ x ∈ o, x ≠ '/') (hc : c ≠ '/') :
    (matchGithubAt (str "github.com/" ++ o ++ '/' :: c :: rest)).isSome := by
  have hstart : isStartOf (str "github.com/")
      (str "github.com/" ++ o ++ '/' :: c :: rest) = true :=
    (isStartOf_iff _ _).2 ⟨o ++ '/' :: c :: rest, List.append_assoc _ _ _⟩
  have hp : ∀ x ∈ o, (fun c => c != '/') x = true :=
    fun x hx => bne_iff_ne.2 (hos x hx)
  have hhead : ∀ d ∈ ('/' :: c :: rest : Str).head?, (fun c => c != '/') d = false := by
    simp
  rcases takeWhile_all_append o ('/' :: c :: rest) hp hhead with ⟨htake, hdrop⟩
  rw [matchGithubAt, if_pos hstart]
  rw [List.append_assoc, List.drop_left]
  dsimp only
  rw [htake, hdrop]
  rcases List.exists_cons_of_ne_nil ho with ⟨x, o', rfl⟩
  have hcname : ((c :: rest).takeWhile (fun c => c != '/')) = c :: rest.takeWhile (fun c => c != '/') :=
    List.takeWhile_cons_of_pos (bne_iff_ne.2 hc)
  simp [hcname]

theorem scanGithub_isSome_of_match :
    ∀ (s : Str), (matchGithubAt s).isSome → (scanGithub s).isSome
  | [], h => by
    rw [show matchGithubAt [] = none from by decide] at h
    exact absurd h (by simp)
  | c :: rest, h => by
    rcases Option.isSome_iff_exists.1 h with ⟨r, hr⟩
    rw [scanGithub, hr]
    rfl

theorem scanGithub_isSome_append :
    ∀ (pre s : Str), (scanGithub s).isSome → (scanGithub (pre ++ s)).isSome
  | [], _, h => h
  | x :: pre, s, h => by
    rw [List.cons_append, scanGithub]
    cases hm : matchGithubAt (x :: (pre ++ s)) with
    | some r => rfl
    | none => exact scanGithub_isSome_append pre s h

theorem scanGithub_some :
    ∀ (s : Str) (o n : Str), scanGithub s = some (o, n) →
      ∃ pre tail, s = pre ++ str "github.com/" ++ o ++ '/' :: n ++ tail ∧
        o ≠ [] ∧ n ≠ [] ∧ (∀ x ∈ o, x ≠ '/') ∧ (∀ x ∈ n, x ≠ '/') ∧
        (∀ c ∈ tail.head?, c = '/')
  | [], o, n, h => by rw [scanGithub] at h; exact absurd h (by simp)
  | c :: rest, o, n, h => by
    rw [scanGithub] at h
    cases hm : matchGithubAt (c :: rest) with
    | some r =>
      rw [hm] at h
      injection h with h
      subst h
      rcases matchGithubAt_some hm with ⟨tail, hs, h1, h2, h3, h4, h5⟩
      exact ⟨[], tail, by rw [List.nil_append, hs], h1, h2, h3, h4, h5⟩
    | none =>
      rw [hm] at h
      rcases scanGithub_some rest o n h with ⟨pre, tail, hs, h1, h2, h3, h4, h5⟩
      exact ⟨c :: pre, tail, by simp [hs], h1, h2, h3, h4, h5⟩

theorem scanGithub_isSome_iff (s : Str) :
    (scanGithub s).isSome ↔ HasGithubRepoPattern s := by
  constructor
  · intro h
    rcases Option.isSome_iff_exists.1 h with ⟨⟨o, n⟩, hr⟩
    rcases scanGithub_some s o n hr with ⟨pre, tail, hs, ho, hn, hos, hns, _⟩
    rcases List.exists_cons_of_ne_nil hn with ⟨c, n', rfl⟩
    refine ⟨pre, o, c, n' ++ tail, ?_, ho, hos, hns c (by simp)⟩
    rw [hs]
    simp
  · rintro ⟨pre, o, c, rest, rfl, ho, hos, hc⟩
    have h := scanGithub_isSome_append pre _
      (scanGithub_isSome_of_match _ (matchGithubAt_isSome_of c rest ho hos hc))
    simpa [List.append_assoc] using h

/-- C10: `parseGithubUrl` returns `none` (and cannot throw — the embedding
is total) exactly when the trimmed input contains no
`github.com/<owner>/<name>` pattern; on success the owner is the first
slash-free segment after `github.com/`, the name is the second (maximal)
slash-free segment with only the first occurrence of `.git` removed from
anywhere inside it — so a trailing `.git` is stripped, but `a.github`
becomes `ahub` as well. -/
theorem parseGithubUrl_spec :
    (∀ url, parseGithubUrl url = none ↔ ¬ HasGithubRepoPattern (trimJs url)) ∧
    (∀ url info, parseGithubUrl url = some info →
        info.url = trimJs url ∧
        ∃ o n pre tail,
          trimJs url = pre ++ str "github.com/" ++ o ++ '/' :: n ++ tail ∧
          o ≠ [] ∧ n ≠ [] ∧ (∀ x ∈ o, x ≠ '/') ∧ (∀ x ∈ n, x ≠ '/') ∧
          (∀ c ∈ tail.head?, c = '/') ∧
          info.owner = o ∧ info.name = removeFirstOcc (str ".git") n) ∧
    parseGithubUrl (str "https://github.com/facebook/react.git") =
      some ⟨str "facebook", str "react",
        str "https://github.com/facebook/react.git"⟩ ∧
    parseGithubUrl (str "github.com/x/a.github") =
      some ⟨str "x", str "ahub", str "github.com/x/a.github"⟩ ∧
    parseGithubUrl (str "hello world") = none := by
  refine ⟨fun url => ?_, fun url info hinfo => ?_, by decide, by decide, by decide⟩
  · cases hscan : scanGithub (trimJs url) with
    | none =>
      refine iff_of_true (by simp [parseGithubUrl, hscan]) ?_
      intro hpat
      have h := (scanGithub_isSome_iff (trimJs url)).2 hpat
      rw [hscan] at h
      exact absurd h (by simp)
    | some r =>
      obtain ⟨o, n⟩ := r
      refine iff_of_false (by simp [parseGithubUrl, hscan]) ?_
      intro hnot
      exact hnot ((scanGithub_isSome_iff _).1 (by rw [hscan]; rfl))
  · cases hscan : scanGithub (trimJs url) with
    | none =>
      simp only [parseGithubUrl, hscan] at hinfo
      exact absurd hinfo (by simp)
    | some r =>
      obtain ⟨o, n⟩ := r
      simp only [parseGithubUrl, hscan] at hinfo
      injection hinfo with hinfo
      subst hinfo
      rcases scanGithub_some (trimJs url) o n hscan with
        ⟨pre, tail, hs, h1, h2, h3, h4, h5⟩
      exact ⟨rfl, o, n, pre, tail, hs, h1, h2, h3, h4, h5, rfl, rfl⟩

/-- Witness for `parseGithubUrl_spec`: a concrete URL parses to its owner
and `.git`-stripped name, with the trimmed input stored back. -/
theorem parseGithubUrl_spec_witness :
    parseGithubUrl (str "https://github.com/acme/widget.git") =
      some ⟨str "acme", str "widget", str "https://github.com/acme/widget.git"⟩ ∧
    (⟨str "acme", str "widget",
        str "https://github.com/acme/widget.git"⟩ : RepoInfo).url =
      trimJs (str "https://github.com/acme/widget.git") :=
  ⟨by decide,
   (parseGithubUrl_spec.2.1 (str "https://github.com/acme/widget.git")
      ⟨str "acme", str "widget", str "https://github.com/acme/widget.git"⟩
      (by decide)).1⟩

/-! ### Cache staleness -/

/-- C1 (code-bug evidence): a cached report written at time 0 and read two
hours later (7200000 ms, past the 3600000 ms window) for the matching
repository is restored into the visible state by `handleAnalyze` rather
than treated as absent — the decision never consults `timestamp` — while
the mount effect's freshness test changes nothing either. -/
theorem stale_cache_restored :
    handleAnalyzeCacheStep false (some ⟨0, str "owner1", str "repo1"⟩)
        ⟨str "owner1", str "repo1", str "https://github.com/owner1/repo1"⟩ =
      .restoreFromCache ⟨0, str "owner1", str "repo1"⟩ ∧
    3600000 ≤ 7200000 - (0 : Nat) ∧
    mountCacheEffect (.saved ⟨0, str "owner1", str "repo1"⟩) 7200000 =
      (.saved ⟨0, str "owner1", str "repo1"⟩, none) := by
  exact ⟨by decide, by omega, by decide⟩

end RepoWiki
